import Mathlib

set_option autoImplicit false

namespace PixivSpec

/-! Shallow embedding of `gallery_dl/extractor/pixiv.py`.

Strings are modelled as `List Char`; Python dicts as association lists with
unique keys; network responses are parameters of the modelled functions. -/

/-- Strings are modelled as lists of characters. -/
abbrev Str := List Char

/-- Python `s.rpartition(sep)[2]` for a one-character separator: the part of
`s` after the last occurrence of `c`, or all of `s` when `c` does not occur. -/
def afterLast (c : Char) (s : Str) : Str :=
  (s.reverse.takeWhile (fun x => x ≠ c)).reverse

/-- Python `s.replace(pat, rep)`: replace every non-overlapping occurrence of
`pat`, scanning left to right.  (`pat = []` never arises in this model.) -/
def replaceAll (pat rep : Str) : Str → Str
  | [] => []
  | c :: cs =>
    if h : pat ≠ [] ∧ pat.isPrefixOf (c :: cs) then
      rep ++ replaceAll pat rep ((c :: cs).drop pat.length)
    else
      c :: replaceAll pat rep cs
termination_by s => s.length
decreasing_by
  · simp only [List.length_drop, List.length_cons]
    exact Nat.sub_lt (Nat.succ_pos _) (List.length_pos.mpr h.1)
  · simp

/-- `pat` occurs somewhere inside `s` (as a contiguous substring). -/
def hasInfix (pat : Str) : Str → Bool
  | [] => pat.isEmpty
  | c :: cs => pat.isPrefixOf (c :: cs) || hasInfix pat cs

/-- Helper for `natRepr`: accumulate the decimal digits of `n` in front of
`acc`; `fuel` bounds the recursion (any `fuel ≥ n` yields all digits). -/
def natReprAux : Nat → Nat → Str → Str
  | 0, _, acc => acc
  | fuel + 1, n, acc =>
    if n = 0 then acc
    else natReprAux fuel (n / 10) (Char.ofNat (48 + n % 10) :: acc)

/-- Python `str(n)` for a natural number: its decimal digits. -/
def natRepr (n : Nat) : Str :=
  if n = 0 then ['0'] else natReprAux n n []

/-- Python `"{:02}".format(n)`: decimal, left-padded with zeros to width 2. -/
def fmt02 (n : Nat) : Str :=
  if n < 10 then '0' :: natRepr n else natRepr n

/-- Python `url.rpartition(".")[2]`, how the code derives an extension hint. -/
def extOf (url : Str) : Str :=
  afterLast '.' url

/-- Lookup in an association list (first match), Python `d[k]` / `KeyError`. -/
def aget {β : Type} (d : List (String × β)) (k : String) : Option β :=
  (d.find? (fun p => p.1 == k)).map (fun p => p.2)

/-- Python `d[k] = v`: replace the value in place if the key is present,
append the pair otherwise (insertion order of Python dicts). -/
def aset {β : Type} (d : List (String × β)) (k : String) (v : β) :
    List (String × β) :=
  if d.any (fun p => p.1 == k) then
    d.map (fun p => if p.1 == k then (k, v) else p)
  else
    d ++ [(k, v)]

/-- Python `del d[k]` (after the caller has checked that `k` is present). -/
def adel {β : Type} (d : List (String × β)) (k : String) : List (String × β) :=
  d.filter (fun p => p.1 != k)

/-- Python `d.update(m)`: set every pair of `m` in `d`, in order. -/
def aupdate {β : Type} (d m : List (String × β)) : List (String × β) :=
  m.foldl (fun acc p => aset acc p.1 p.2) d

/-- A tag record; the code only ever reads its `name` field (`tag["name"]`). -/
structure Tag where
  name : Str
deriving DecidableEq

/-- `work["meta_single_page"]`; the code reads `original_image_url`. -/
structure SinglePageInfo where
  original_image_url : Str
deriving DecidableEq

/-- One entry of `work["meta_pages"]`; the code reads
`img["image_urls"]["original"]`, collapsed here to one field. -/
structure PageInfo where
  original : Str
deriving DecidableEq

/-- Values stored in a work record / metadata record. -/
inductive Value where
  | vstr (s : Str)
  | vnum (n : Int)
  | vstrs (l : List Str)
  | vtags (l : List Tag)
  | vsingle (p : SinglePageInfo)
  | vpages (l : List PageInfo)
deriving DecidableEq

/-- A Python dict with `Value` entries. -/
abbrev Dict := List (String × Value)

/-- One frame of `ugoira["frames"]`: `{"file": ..., "delay": ...}`. -/
structure UgoiraFrame where
  file : Str
  delay : Nat
deriving DecidableEq

/-- `api.ugoira_metadata(...)`: the code reads `zip_urls["medium"]` and
`frames`. -/
structure UgoiraMeta where
  zip_urls_medium : Str
  frames : List UgoiraFrame
deriving DecidableEq

/-- One yielded `Message.Url` item: the URL and the metadata dict as it
stands at the moment of the yield. -/
structure Descriptor where
  url : Str
  meta : Dict
deriving DecidableEq

def medMarker : Str := "_ugoira600x600".toList

def hiMarker : Str := "_ugoira1920x1080".toList

/-- `"{file} {delay}\n".format_map(frame)`. -/
def frameLine (f : UgoiraFrame) : Str :=
  f.file ++ (' ' :: natRepr f.delay) ++ ['\n']

/-- `"".join(... for frame in ugoira["frames"])`. -/
def frameList (frames : List UgoiraFrame) : Str :=
  (frames.map frameLine).flatten

/-- `[tag["name"] for tag in work["tags"]]`; `none` models the exception a
non-list-of-dicts value raises. -/
def asTagNames : Value → Option (List Str)
  | .vtags l => some (l.map (fun t => t.name))
  | _ => none

/-- `meta_single_page["original_image_url"]`. -/
def asSingleUrl : Value → Option Str
  | .vsingle p => some p.original_image_url
  | _ => none

/-- `work["meta_pages"]` used as a list of page records. -/
def asPages : Value → Option (List PageInfo)
  | .vpages l => some l
  | _ => none

def pSuffix (n : Nat) : Str :=
  '_' :: 'p' :: fmt02 n

/-- The `for num, img in enumerate(meta_pages)` loop: the work dict is
mutated in place, so each yield snapshots the dict after this iteration's
`num`/`extension` assignments. -/
def multiLoop (w : Dict) (n : Nat) : List PageInfo → List Descriptor
  | [] => []
  | pg :: rest =>
    let w1 := aset w "num" (.vstr (pSuffix n))
    let w2 := aset w1 "extension" (.vstr (extOf pg.original))
    ⟨pg.original, w2⟩ :: multiLoop w2 (n + 1) rest

/-- Lines 40-76 of `PixivExtractor.items`, the per-work resolution.
`ugoiraOf` stands for `self.api.ugoira_metadata(work["id"])`; the dict
mutations are threaded explicitly, and each yielded descriptor snapshots the
dict at its yield.  `none` models an uncaught `KeyError`/`TypeError`. -/
def resolveWork (load_ugoira : Bool) (metadata : Dict)
    (ugoiraOf : Value → UgoiraMeta) (work : Dict) : Option (List Descriptor) := do
  let msp ← aget work "meta_single_page"
  let mps ← aget work "meta_pages"
  let _ ← aget work "image_urls"
  let w := adel (adel (adel work "meta_single_page") "image_urls") "meta_pages"
  let w := aset w "num" (.vstr [])
  let tagsv ← aget w "tags"
  let names ← asTagNames tagsv
  let w := aset w "tags" (.vstrs names)
  let w := aupdate w metadata
  let tv ← aget w "type"
  if tv = Value.vstr ("ugoira".toList) then
    if load_ugoira = false then
      return []
    else
      let idv ← aget w "id"
      let ug := ugoiraOf idv
      let url := replaceAll medMarker hiMarker ug.zip_urls_medium
      let w := aset w "extension" (.vstr ("zip".toList))
      let d1 : Descriptor := ⟨url, w⟩
      let w := aset w "extension" (.vstr ("txt".toList))
      return [d1, ⟨("text:".toList) ++ frameList ug.frames, w⟩]
  else
    let pv ← aget w "page_count"
    if pv = Value.vnum 1 then
      let url ← asSingleUrl msp
      let w := aset w "extension" (.vstr (extOf url))
      return [⟨url, w⟩]
    else
      let pages ← asPages mps
      return multiLoop w 0 pages

/-- Query parameters of an API request. -/
abbrev Params := List (String × Str)

structure HttpResponse where
  status : Nat
  body : Str
deriving DecidableEq

/-- Observable effects of `PixivAppAPI._call`, in order. -/
inductive ApiEvent where
  | login
  | httpGet (url : Str) (params : Params)
deriving DecidableEq

inductive CallError where
  | notFound
  | stopExtraction (logged : Str)
deriving DecidableEq

/-- `PixivAppAPI._call`: the HTTP response to the single GET is a parameter;
the first component records the effects (credential check, then the GET), the
second the outcome computed from the response status.  A `stopExtraction`
error carries the response body that the code logs. -/
def pixivCall (endpoint : Str) (params : Params) (response : HttpResponse) :
    List ApiEvent × Except CallError Str :=
  ( [ApiEvent.login,
     ApiEvent.httpGet (("https://app-api.pixiv.net/".toList) ++ endpoint) params],
    if 200 ≤ response.status ∧ response.status < 400 then
      Except.ok response.body
    else if response.status = 404 then
      Except.error CallError.notFound
    else
      Except.error (CallError.stopExtraction response.body) )

/-- One page of a paged endpoint: the code reads `data["illusts"]` and
`data["next_url"]` (`[]` models an empty/null next link). -/
structure Page (α : Type) where
  illusts : List α
  next_url : Str

/-- `PixivAppAPI._pagination`: the server is a function from request
parameters to the returned page; `fuel` bounds the number of loop
iterations, `none` meaning the loop was still running.  After a non-final
page the code sets `params["offset"] = data["next_url"].rpartition("=")[2]`. -/
def paginate {α : Type} (server : Params → Page α) : Nat → Params → Option (List α)
  | 0, _ => none
  | fuel + 1, params =>
    let page := server params
    if page.next_url = [] then
      some page.illusts
    else
      match paginate server fuel (aset params "offset" (afterLast '=' page.next_url)) with
      | none => none
      | some rest => some (page.illusts ++ rest)

/-- The parameters of the `n`-th request the pagination loop issues. -/
def visitParams {α : Type} (server : Params → Page α) (params : Params) : Nat → Params
  | 0 => params
  | n + 1 =>
    let p := visitParams server params n
    aset p "offset" (afterLast '=' (server p).next_url)

/-- Python `str.lower`, restricted to ASCII letters. -/
def toLowerChar (c : Char) : Char :=
  if 'A' ≤ c ∧ c ≤ 'Z' then Char.ofNat (c.toNat + 32) else c

/-- Python `s.lower()` for a model string. -/
def strLower (s : Str) : Str :=
  s.map toLowerChar

/-- The `modes` table of `PixivRankingExtractor.__init__`. -/
def rankingModes : List (Str × Str) :=
  [("daily".toList, "day".toList), ("daily_r18".toList, "day_r18".toList),
   ("weekly".toList, "week".toList), ("weekly_r18".toList, "week_r18".toList),
   ("monthly".toList, "month".toList), ("male".toList, "day_male".toList),
   ("male_r18".toList, "day_male_r18".toList),
   ("female".toList, "day_female".toList),
   ("female_r18".toList, "day_female_r18".toList),
   ("original".toList, "week_original".toList),
   ("rookie".toList, "week_rookie".toList), ("r18g".toList, "week_r18g".toList)]

/-- Outcome of ranking-mode parsing: `apiMode` is `self.mode` (sent to the
ranking endpoint by `works`), `contextMode` is what `ranking_info["mode"]`
receives, `warned` whether `log.warning` ran. -/
structure RankingMode where
  apiMode : Str
  contextMode : Str
  warned : Bool
deriving DecidableEq

/-- Lines 283-287 of `PixivRankingExtractor.__init__`; the query value is
`none` when the URL has no `mode` parameter. -/
def parseRankingMode (query : Option Str) : Option RankingMode :=
  let m0 := strLower (query.getD ("daily".toList))
  let warned := rankingModes.all (fun p => p.1 != m0)
  let m := if warned then "daily".toList else m0
  (rankingModes.find? (fun p => p.1 == m)).map (fun p => ⟨p.2, m, warned⟩)

structure RankingDate where
  date : Str
  warned : Bool
deriving DecidableEq

/-- Python `str.isdecimal`, restricted to ASCII digits. -/
def isDecimalStr (s : Str) : Bool :=
  s.all Char.isDigit

/-- `"{}-{}-{}".format(date[0:4], date[4:6], date[6:8])`. -/
def hyphenate (d : Str) : Str :=
  d.take 4 ++ ('-' :: (d.drop 4).take 2) ++ ('-' :: (d.drop 6).take 2)

/-- Lines 289-298 of `PixivRankingExtractor.__init__`.  `utcYesterday`
stands for `(datetime.utcnow() - timedelta(days=1)).strftime("%Y-%m-%d")`;
an absent or empty query value is falsy and takes the default silently. -/
def parseRankingDate (query : Option Str) (utcYesterday : Str) : RankingDate :=
  match query with
  | none => ⟨utcYesterday, false⟩
  | some d =>
    if d = [] then ⟨utcYesterday, false⟩
    else if d.length = 8 ∧ isDecimalStr d = true then ⟨hyphenate d, false⟩
    else ⟨utcYesterday, true⟩

/-- `self.ranking_info = {"mode": mode, "date": self.date}`. -/
def rankingInfo (rm : RankingMode) (rd : RankingDate) : List (String × Str) :=
  [("mode", rm.contextMode), ("date", rd.date)]

theorem aget_nil {β : Type} (k : String) : aget ([] : List (String × β)) k = none :=
  rfl

theorem aget_cons {β : Type} (p : String × β) (d : List (String × β)) (k : String) :
    aget (p :: d) k = if p.1 = k then some p.2 else aget d k := by
  by_cases hp : p.1 = k
  · rw [aget, List.find?_cons_of_pos _ (by simp [hp]), if_pos hp]
    rfl
  · rw [aget, List.find?_cons_of_neg _ (by simp [hp]), if_neg hp]
    rfl

theorem aget_append_some {β : Type} (d₁ d₂ : List (String × β)) (k : String) (v : β)
    (h : aget d₁ k = some v) : aget (d₁ ++ d₂) k = some v := by
  induction d₁ with
  | nil => simp [aget_nil] at h
  | cons p rest ih =>
    rw [List.cons_append, aget_cons]
    rw [aget_cons] at h
    by_cases hp : p.1 = k
    · simpa [hp] using h
    · rw [if_neg hp] at h ⊢
      exact ih h

theorem aget_append_none {β : Type} (d₁ d₂ : List (String × β)) (k : String)
    (h : aget d₁ k = none) : aget (d₁ ++ d₂) k = aget d₂ k := by
  induction d₁ with
  | nil => simp
  | cons p rest ih =>
    rw [List.cons_append, aget_cons]
    rw [aget_cons] at h
    by_cases hp : p.1 = k
    · simp [hp] at h
    · rw [if_neg hp] at h ⊢
      exact ih h

theorem aget_map_replace {β : Type} (d : List (String × β)) (k k' : String) (v : β) :
    aget (d.map (fun q => if q.1 == k' then (k', v) else q)) k =
      if k' = k then (aget d k').map (fun _ => v) else aget d k := by
  induction d with
  | nil => by_cases h : k' = k <;> simp [aget_nil, h]
  | cons p rest ih =>
    rw [List.map_cons]
    by_cases hp : p.1 = k' <;> by_cases hk : k' = k
    · simp [aget_cons, hp, hk, ih]
    · simp only [aget_cons, hp, hk] at ih ⊢
      simp [aget_cons, hp, hk]
      simpa [hk] using ih
    · subst hk
      simp only [beq_iff_eq] at ih ⊢
      simp [aget_cons, hp] at ih ⊢
      simp [ih]
    · by_cases hpk : p.1 = k
      · simp [aget_cons, hp, hk, hpk, show ¬k = k' from fun hh => hk hh.symm]
      · simp only [beq_iff_eq] at ih ⊢
        simp [aget_cons, hp, hk, hpk] at ih ⊢
        simp [ih]

theorem aget_any_iff {β : Type} (d : List (String × β)) (k : String) :
    (d.any (fun p => p.1 == k)) = true ↔ (aget d k).isSome := by
  induction d with
  | nil => simp [aget_nil]
  | cons p rest ih =>
    rw [List.any_cons, aget_cons]
    by_cases hp : p.1 = k
    · simp [hp]
    · simp [hp, ih]

theorem aget_aset_self {β : Type} (d : List (String × β)) (k : String) (v : β) :
    aget (aset d k v) k = some v := by
  rw [aset]
  by_cases ha : (d.any (fun p => p.1 == k)) = true
  · rw [if_pos ha, aget_map_replace, if_pos rfl]
    obtain ⟨w, hw⟩ := Option.isSome_iff_exists.mp ((aget_any_iff d k).mp ha)
    rw [hw]
    rfl
  · rw [if_neg ha]
    have hn : aget d k = none := by
      cases hh : aget d k with
      | none => rfl
      | some w => exact absurd ((aget_any_iff d k).mpr (by simp [hh])) ha
    rw [aget_append_none _ _ _ hn, aget_cons, if_pos rfl]

theorem aget_aset_ne {β : Type} (d : List (String × β)) (k k' : String) (v : β)
    (h : k' ≠ k) : aget (aset d k' v) k = aget d k := by
  rw [aset]
  by_cases ha : (d.any (fun p => p.1 == k')) = true
  · rw [if_pos ha, aget_map_replace, if_neg h]
  · rw [if_neg ha]
    cases hh : aget d k with
    | none => rw [aget_append_none _ _ _ hh, aget_cons, if_neg h, aget_nil]
    | some w => rw [aget_append_some _ _ _ _ hh]

theorem aget_adel_self {β : Type} (d : List (String × β)) (k : String) :
    aget (adel d k) k = none := by
  induction d with
  | nil => rfl
  | cons p rest ih =>
    rw [adel, List.filter]
    by_cases hp : p.1 = k
    · simpa [adel, hp] using ih
    · rw [show (p.1 != k) = true by simp [hp], aget_cons, if_neg hp]
      simpa [adel] using ih

theorem aget_adel_ne {β : Type} (d : List (String × β)) (k k' : String)
    (h : k' ≠ k) : aget (adel d k') k = aget d k := by
  induction d with
  | nil => rfl
  | cons p rest ih =>
    rw [adel, List.filter, aget_cons]
    by_cases hp : p.1 = k'
    · have hpk : p.1 ≠ k := fun hh => h (hp ▸ hh)
      rw [show (p.1 != k') = false by simp [hp], if_neg hpk]
      simpa [adel] using ih
    · rw [show (p.1 != k') = true by simp [hp], aget_cons]
      by_cases hpk : p.1 = k
      · rw [if_pos hpk, if_pos hpk]
      · rw [if_neg hpk, if_neg hpk]
        simpa [adel] using ih

theorem aget_aupdate_none {β : Type} (d m : List (String × β)) (k : String)
    (h : aget m k = none) : aget (aupdate d m) k = aget d k := by
  induction m generalizing d with
  | nil => rfl
  | cons p rest ih =>
    rw [aget_cons] at h
    by_cases hp : p.1 = k
    · simp [hp] at h
    · rw [if_neg hp] at h
      rw [aupdate, List.foldl_cons]
      have := ih (aset d p.1 p.2) h
      rw [aupdate] at this
      rw [this, aget_aset_ne _ _ _ _ hp]

theorem aget_aupdate_some {β : Type} (d m : List (String × β)) (k : String) (v : β)
    (hnd : (m.map Prod.fst).Nodup) (h : aget m k = some v) :
    aget (aupdate d m) k = some v := by
  induction m generalizing d with
  | nil => simp [aget_nil] at h
  | cons p rest ih =>
    simp only [List.map_cons, List.nodup_cons] at hnd
    rw [aget_cons] at h
    rw [aupdate, List.foldl_cons]
    by_cases hp : p.1 = k
    · rw [if_pos hp, Option.some_inj] at h
      have hrest : aget rest k = none := by
        cases hh : aget rest k with
        | none => rfl
        | some w =>
          exfalso
          apply hnd.1
          rw [hp]
          rw [aget] at hh
          obtain ⟨q, hq, -⟩ := Option.map_eq_some'.mp hh
          have hqk : q.1 = k := by simpa using List.find?_some hq
          exact List.mem_map.mpr ⟨q, List.mem_of_find?_eq_some hq, hqk⟩
      have := aget_aupdate_none (aset d p.1 p.2) rest k hrest
      rw [aupdate] at this
      rw [this, hp, aget_aset_self, h]
    · rw [if_neg hp] at h
      exact ih (aset d p.1 p.2) hnd.2 h

/-- `aset` never removes a key. -/
theorem aget_aset_isSome {β : Type} (d : List (String × β)) (k k' : String) (v : β)
    (h : (aget d k).isSome) : (aget (aset d k' v) k).isSome := by
  by_cases hk : k' = k
  · rw [hk, aget_aset_self]
    rfl
  · rw [aget_aset_ne _ _ _ _ hk]
    exact h

/-- `update` never removes a key. -/
theorem aget_aupdate_isSome {β : Type} (d m : List (String × β)) (k : String)
    (h : (aget d k).isSome) : (aget (aupdate d m) k).isSome := by
  induction m generalizing d with
  | nil => exact h
  | cons p rest ih =>
    rw [aupdate, List.foldl_cons]
    exact ih (aset d p.1 p.2) (aget_aset_isSome d k p.1 p.2 h)

theorem takeWhile_append_cons {α : Type} (p : α → Bool) (l : List α) (c : α)
    (r : List α) (hl : ∀ x ∈ l, p x = true) (hc : p c = false) :
    (l ++ c :: r).takeWhile p = l := by
  induction l with
  | nil => simp [List.takeWhile_cons, hc]
  | cons a rest ih =>
    rw [List.cons_append, List.takeWhile_cons, hl a (by simp)]
    simp only [if_true]
    rw [ih (fun x hx => hl x (by simp [hx]))]

/-- `rpartition`: past the last separator, the tail is returned unchanged. -/
theorem afterLast_append (q : Str) (c : Char) (s : Str) (hs : c ∉ s) :
    afterLast c (q ++ c :: s) = s := by
  rw [afterLast, List.reverse_append, List.reverse_cons]
  rw [List.append_assoc, List.singleton_append]
  rw [takeWhile_append_cons _ _ _ _
    (fun x hx => by simp; exact fun hh => hs (hh ▸ List.mem_reverse.mp hx)) (by simp)]
  exact List.reverse_reverse s

theorem replaceAll_of_not_infix (pat rep : Str) (hp : pat ≠ []) :
    ∀ s : Str, hasInfix pat s = false → replaceAll pat rep s = s := by
  intro s
  induction s with
  | nil => intro _; rw [replaceAll]
  | cons c cs ih =>
    intro h
    simp only [hasInfix, Bool.or_eq_false_iff] at h
    rw [replaceAll, dif_neg (by simp [h.1])]
    rw [ih h.2]

theorem replaceAll_head (pat rep s : Str) (hp : pat ≠ []) :
    replaceAll pat rep (pat ++ s) = rep ++ replaceAll pat rep s := by
  obtain ⟨c, cs, rfl⟩ : ∃ c cs, pat = c :: cs := by
    cases pat with
    | nil => exact absurd rfl hp
    | cons c cs => exact ⟨c, cs, rfl⟩
  have hpre : (c :: cs).isPrefixOf ((c :: cs) ++ s) = true :=
    List.isPrefixOf_iff_prefix.mpr (List.prefix_append _ s)
  rw [List.cons_append] at hpre ⊢
  rw [replaceAll, dif_pos ⟨hp, hpre⟩, ← List.cons_append, List.drop_left]

/-- If `pat` occurs exactly at the seam of `q ++ pat ++ s` — not anywhere
strictly inside `q ++ pat` before that point and not in `s` — then Python's
`replace` rewrites exactly that occurrence. -/
theorem replaceAll_single_occurrence (pat rep s : Str) (hp : pat ≠ [])
    (hinf : hasInfix pat s = false) :
    ∀ q : Str, (∀ j, j < q.length → pat.isPrefixOf ((q ++ (pat ++ s)).drop j) = false) →
    replaceAll pat rep (q ++ pat ++ s) = q ++ rep ++ s := by
  intro q
  induction q with
  | nil =>
    intro _
    simp only [List.nil_append]
    rw [replaceAll_head pat rep s hp, replaceAll_of_not_infix pat rep hp s hinf]
  | cons a q' ih =>
    intro H
    have h0 : pat.isPrefixOf (a :: (q' ++ (pat ++ s))) = false := by
      have := H 0 (by simp)
      simpa using this
    rw [List.append_assoc, List.cons_append, replaceAll, dif_neg (by simp [h0])]
    rw [List.cons_append, List.cons_append]
    have := ih (fun j hj => by
      have hh := H (j + 1) (by simpa using Nat.succ_lt_succ hj)
      simpa using hh)
    rw [List.append_assoc] at this
    rw [this]

theorem replaceAll_ne_nil (pat rep s : Str) (hs : s ≠ []) (hr : rep ≠ []) :
    replaceAll pat rep s ≠ [] := by
  cases s with
  | nil => exact absurd rfl hs
  | cons c cs =>
    rw [replaceAll]
    split
    · simp [hr]
    · simp

theorem ofNat_digit_isDigit (r : Nat) (hr : r < 10) :
    (Char.ofNat (48 + r)).isDigit = true := by
  interval_cases r <;> decide

theorem natReprAux_mem (fuel : Nat) :
    ∀ (n : Nat) (acc : Str) (c : Char),
      c ∈ natReprAux fuel n acc → c.isDigit = true ∨ c ∈ acc := by
  induction fuel with
  | zero =>
    intro n acc c hc
    exact Or.inr hc
  | succ f ih =>
    intro n acc c hc
    rw [natReprAux] at hc
    by_cases hn : n = 0
    · rw [if_pos hn] at hc
      exact Or.inr hc
    · rw [if_neg hn] at hc
      rcases ih (n / 10) _ c hc with hd | hm
      · exact Or.inl hd
      · rcases List.mem_cons.mp hm with he | ha
        · exact Or.inl (he ▸ ofNat_digit_isDigit _ (Nat.mod_lt _ (by norm_num)))
        · exact Or.inr ha

theorem natRepr_isDigit (n : Nat) (c : Char) (h : c ∈ natRepr n) :
    c.isDigit = true := by
  rw [natRepr] at h
  by_cases hn : n = 0
  · rw [if_pos hn] at h
    simp at h
    rw [h]
    decide
  · rw [if_neg hn] at h
    rcases natReprAux_mem n n [] c h with hd | hm
    · exact hd
    · simp at hm

theorem newline_not_mem_natRepr (n : Nat) : '\n' ∉ natRepr n := by
  intro h
  have := natRepr_isDigit n '\n' h
  simp at this

theorem count_newline_frameLine (f : UgoiraFrame) (hf : '\n' ∉ f.file) :
    (frameLine f).count '\n' = 1 := by
  rw [frameLine]
  rw [List.count_append, List.count_append, List.count_cons]
  rw [List.count_eq_zero.mpr hf, List.count_eq_zero.mpr (newline_not_mem_natRepr f.delay)]
  decide

theorem count_newline_frameList (frames : List UgoiraFrame)
    (hf : ∀ f ∈ frames, '\n' ∉ f.file) :
    (frameList frames).count '\n' = frames.length := by
  induction frames with
  | nil => rfl
  | cons f fs ih =>
    rw [frameList, List.map_cons, List.flatten_cons, List.count_append]
    rw [count_newline_frameLine f (hf f (by simp))]
    have := ih (fun g hg => hf g (by simp [hg]))
    rw [frameList] at this
    rw [this, List.length_cons]
    omega

/-- The work dict after lines 40-47: the three deletions, `num` cleared,
tags flattened to `names`, and the context metadata merged over it. -/
def prepared (metadata work : Dict) (names : List Str) : Dict :=
  aupdate
    (aset
      (aset (adel (adel (adel work "meta_single_page") "image_urls") "meta_pages")
        "num" (.vstr []))
      "tags" (.vstrs names))
    metadata

theorem aget_prepared_other (metadata work : Dict) (names : List Str) (k : String)
    (hmd : aget metadata k = none)
    (k1 : "tags" ≠ k) (k2 : "num" ≠ k) (k3 : "meta_pages" ≠ k)
    (k4 : "image_urls" ≠ k) (k5 : "meta_single_page" ≠ k) :
    aget (prepared metadata work names) k = aget work k := by
  rw [prepared, aget_aupdate_none _ _ _ hmd, aget_aset_ne _ _ _ _ k1,
    aget_aset_ne _ _ _ _ k2, aget_adel_ne _ _ _ k3, aget_adel_ne _ _ _ k4,
    aget_adel_ne _ _ _ k5]

theorem aget_prepared_md (metadata work : Dict) (names : List Str) (k : String)
    (v : Value) (hnd : (metadata.map Prod.fst).Nodup) (h : aget metadata k = some v) :
    aget (prepared metadata work names) k = some v := by
  rw [prepared]
  exact aget_aupdate_some _ _ _ _ hnd h

theorem aget_prepared_deleted (metadata work : Dict) (names : List Str) (k : String)
    (hmd : aget metadata k = none)
    (hk : k = "meta_single_page" ∨ k = "image_urls" ∨ k = "meta_pages") :
    aget (prepared metadata work names) k = none := by
  rcases hk with rfl | rfl | rfl
  · rw [prepared, aget_aupdate_none _ _ _ hmd, aget_aset_ne _ _ _ _ (by decide),
      aget_aset_ne _ _ _ _ (by decide), aget_adel_ne _ _ _ (by decide),
      aget_adel_ne _ _ _ (by decide), aget_adel_self]
  · rw [prepared, aget_aupdate_none _ _ _ hmd, aget_aset_ne _ _ _ _ (by decide),
      aget_aset_ne _ _ _ _ (by decide), aget_adel_ne _ _ _ (by decide),
      aget_adel_self]
  · rw [prepared, aget_aupdate_none _ _ _ hmd, aget_aset_ne _ _ _ _ (by decide),
      aget_aset_ne _ _ _ _ (by decide), aget_adel_self]

theorem aget_prepared_num_isSome (metadata work : Dict) (names : List Str) :
    (aget (prepared metadata work names) "num").isSome := by
  rw [prepared]
  apply aget_aupdate_isSome
  apply aget_aset_isSome
  rw [aget_aset_self]
  rfl

theorem aget_prepared_tags (metadata work : Dict) (names : List Str)
    (hmd : aget metadata "tags" = none) :
    aget (prepared metadata work names) "tags" = some (.vstrs names) := by
  rw [prepared, aget_aupdate_none _ _ _ hmd, aget_aset_self]

/-- The animation (`ugoira`) branch of the resolver, lines 49-64. -/
theorem resolveWork_ugoira_eq (load : Bool) (metadata : Dict)
    (ugoiraOf : Value → UgoiraMeta) (work : Dict) (mspv mpsv iuv idv : Value)
    (tl : List Tag)
    (h1 : aget work "meta_single_page" = some mspv)
    (h2 : aget work "meta_pages" = some mpsv)
    (h3 : aget work "image_urls" = some iuv)
    (h4 : aget work "tags" = some (Value.vtags tl))
    (hmtype : aget metadata "type" = none)
    (htype : aget work "type" = some (Value.vstr ("ugoira".toList)))
    (hmid : aget metadata "id" = none)
    (hid : aget work "id" = some idv) :
    resolveWork load metadata ugoiraOf work =
      if load then
        some [⟨replaceAll medMarker hiMarker (ugoiraOf idv).zip_urls_medium,
               aset (prepared metadata work (tl.map (fun t => t.name))) "extension"
                 (Value.vstr ("zip".toList))⟩,
              ⟨("text:".toList) ++ frameList (ugoiraOf idv).frames,
               aset (aset (prepared metadata work (tl.map (fun t => t.name)))
                   "extension" (Value.vstr ("zip".toList)))
                 "extension" (Value.vstr ("txt".toList))⟩]
      else some [] := by
  have h4' : aget (aset (adel (adel (adel work "meta_single_page") "image_urls")
      "meta_pages") "num" (Value.vstr [])) "tags" = some (Value.vtags tl) := by
    rw [aget_aset_ne _ _ _ _ (by decide), aget_adel_ne _ _ _ (by decide),
      aget_adel_ne _ _ _ (by decide), aget_adel_ne _ _ _ (by decide), h4]
  have htype' : aget (prepared metadata work (tl.map (fun t => t.name))) "type" =
      some (Value.vstr ("ugoira".toList)) := by
    rw [aget_prepared_other _ _ _ _ hmtype (by decide) (by decide) (by decide)
      (by decide) (by decide), htype]
  have hid' : aget (prepared metadata work (tl.map (fun t => t.name))) "id" =
      some idv := by
    rw [aget_prepared_other _ _ _ _ hmid (by decide) (by decide) (by decide)
      (by decide) (by decide), hid]
  rw [prepared] at htype' hid'
  cases load with
  | false =>
    simp only [resolveWork, h1, h2, h3, Option.bind_eq_bind, Option.some_bind, h4',
      asTagNames, htype', hid', if_pos rfl, prepared]
    simp
  | true =>
    simp only [resolveWork, h1, h2, h3, Option.bind_eq_bind, Option.some_bind, h4',
      asTagNames, htype', hid', if_pos rfl, prepared]
    simp

/-- The single-image branch of the resolver, lines 66-69. -/
theorem resolveWork_single_eq (load : Bool) (metadata : Dict)
    (ugoiraOf : Value → UgoiraMeta) (work : Dict) (u : Str) (mpsv iuv : Value)
    (tl : List Tag) (t : Str)
    (h1 : aget work "meta_single_page" = some (Value.vsingle ⟨u⟩))
    (h2 : aget work "meta_pages" = some mpsv)
    (h3 : aget work "image_urls" = some iuv)
    (h4 : aget work "tags" = some (Value.vtags tl))
    (hmtype : aget metadata "type" = none)
    (htype : aget work "type" = some (Value.vstr t))
    (ht : t ≠ "ugoira".toList)
    (hmpc : aget metadata "page_count" = none)
    (hpc : aget work "page_count" = some (Value.vnum 1)) :
    resolveWork load metadata ugoiraOf work =
      some [⟨u, aset (prepared metadata work (tl.map (fun t => t.name))) "extension"
        (Value.vstr (extOf u))⟩] := by
  have h4' : aget (aset (adel (adel (adel work "meta_single_page") "image_urls")
      "meta_pages") "num" (Value.vstr [])) "tags" = some (Value.vtags tl) := by
    rw [aget_aset_ne _ _ _ _ (by decide), aget_adel_ne _ _ _ (by decide),
      aget_adel_ne _ _ _ (by decide), aget_adel_ne _ _ _ (by decide), h4]
  have htype' : aget (prepared metadata work (tl.map (fun t => t.name))) "type" =
      some (Value.vstr t) := by
    rw [aget_prepared_other _ _ _ _ hmtype (by decide) (by decide) (by decide)
      (by decide) (by decide), htype]
  have hpc' : aget (prepared metadata work (tl.map (fun t => t.name))) "page_count" =
      some (Value.vnum 1) := by
    rw [aget_prepared_other _ _ _ _ hmpc (by decide) (by decide) (by decide)
      (by decide) (by decide), hpc]
  rw [prepared] at htype' hpc'
  simp only [resolveWork, h1, h2, h3, Option.bind_eq_bind, Option.some_bind, h4',
    asTagNames, htype', hpc', asSingleUrl, prepared]
  rw [if_neg (by simpa using ht)]
  simp

/-- The multi-image branch of the resolver, lines 71-76. -/
theorem resolveWork_multi_eq (load : Bool) (metadata : Dict)
    (ugoiraOf : Value → UgoiraMeta) (work : Dict) (pages : List PageInfo)
    (mspv iuv pcv : Value) (tl : List Tag) (t : Str)
    (h1 : aget work "meta_single_page" = some mspv)
    (h2 : aget work "meta_pages" = some (Value.vpages pages))
    (h3 : aget work "image_urls" = some iuv)
    (h4 : aget work "tags" = some (Value.vtags tl))
    (hmtype : aget metadata "type" = none)
    (htype : aget work "type" = some (Value.vstr t))
    (ht : t ≠ "ugoira".toList)
    (hmpc : aget metadata "page_count" = none)
    (hpc : aget work "page_count" = some pcv)
    (hpc1 : pcv ≠ Value.vnum 1) :
    resolveWork load metadata ugoiraOf work =
      some (multiLoop (prepared metadata work (tl.map (fun t => t.name))) 0 pages) := by
  have h4' : aget (aset (adel (adel (adel work "meta_single_page") "image_urls")
      "meta_pages") "num" (Value.vstr [])) "tags" = some (Value.vtags tl) := by
    rw [aget_aset_ne _ _ _ _ (by decide), aget_adel_ne _ _ _ (by decide),
      aget_adel_ne _ _ _ (by decide), aget_adel_ne _ _ _ (by decide), h4]
  have htype' : aget (prepared metadata work (tl.map (fun t => t.name))) "type" =
      some (Value.vstr t) := by
    rw [aget_prepared_other _ _ _ _ hmtype (by decide) (by decide) (by decide)
      (by decide) (by decide), htype]
  have hpc' : aget (prepared metadata work (tl.map (fun t => t.name))) "page_count" =
      some pcv := by
    rw [aget_prepared_other _ _ _ _ hmpc (by decide) (by decide) (by decide)
      (by decide) (by decide), hpc]
  rw [prepared] at htype' hpc'
  simp only [resolveWork, h1, h2, h3, Option.bind_eq_bind, Option.some_bind, h4',
    asTagNames, htype', hpc', asPages, prepared]
  rw [if_neg (by simpa using ht), if_neg hpc1]
  simp

theorem multiLoop_length (w : Dict) (n : Nat) (pages : List PageInfo) :
    (multiLoop w n pages).length = pages.length := by
  induction pages generalizing w n with
  | nil => rfl
  | cons pg rest ih => simp [multiLoop, ih]

theorem multiLoop_getElem (w : Dict) (n : Nat) (pages : List PageInfo) :
    ∀ (i : Nat) (pg : PageInfo), pages[i]? = some pg →
    ∃ d : Descriptor, (multiLoop w n pages)[i]? = some d ∧ d.url = pg.original ∧
      aget d.meta "num" = some (Value.vstr (pSuffix (n + i))) ∧
      aget d.meta "extension" = some (Value.vstr (extOf pg.original)) := by
  induction pages generalizing w n with
  | nil =>
    intro i pg h
    simp at h
  | cons pg0 rest ih =>
    intro i pg h
    cases i with
    | zero =>
      simp only [List.getElem?_cons_zero, Option.some_inj] at h
      subst h
      refine ⟨⟨pg0.original, aset (aset w "num" (Value.vstr (pSuffix n))) "extension"
        (Value.vstr (extOf pg0.original))⟩, ?_, rfl, ?_, ?_⟩
      · simp [multiLoop]
      · rw [Nat.add_zero]
        rw [aget_aset_ne _ _ _ _ (by decide), aget_aset_self]
      · rw [aget_aset_self]
    | succ j =>
      simp only [List.getElem?_cons_succ] at h
      obtain ⟨d, hd, hu, hn, he⟩ := ih _ (n + 1) j pg h
      refine ⟨d, ?_, hu, ?_, he⟩
      · simpa [multiLoop] using hd
      · rw [hn]
        have : n + 1 + j = n + (j + 1) := by omega
        rw [this]

theorem multiLoop_meta_other (w : Dict) (n : Nat) (pages : List PageInfo)
    (d : Descriptor) (hd : d ∈ multiLoop w n pages) (k : String)
    (k1 : "num" ≠ k) (k2 : "extension" ≠ k) : aget d.meta k = aget w k := by
  induction pages generalizing w n with
  | nil => simp [multiLoop] at hd
  | cons pg rest ih =>
    simp only [multiLoop, List.mem_cons] at hd
    rcases hd with rfl | hd
    · show aget (aset (aset w "num" _) "extension" _) k = aget w k
      rw [aget_aset_ne _ _ _ _ k2, aget_aset_ne _ _ _ _ k1]
    · rw [ih _ _ hd, aget_aset_ne _ _ _ _ k2, aget_aset_ne _ _ _ _ k1]

/-- Every descriptor the multi-image loop yields carries an `extension`. -/
theorem multiLoop_meta_ext (w : Dict) (n : Nat) (pages : List PageInfo)
    (d : Descriptor) (hd : d ∈ multiLoop w n pages) :
    ∃ e : Str, aget d.meta "extension" = some (Value.vstr e) := by
  induction pages generalizing w n with
  | nil => simp [multiLoop] at hd
  | cons pg rest ih =>
    simp only [multiLoop, List.mem_cons] at hd
    rcases hd with rfl | hd
    · exact ⟨_, aget_aset_self _ _ _⟩
    · exact ih _ _ hd

/-- Every descriptor the multi-image loop yields carries a `num`. -/
theorem multiLoop_meta_num (w : Dict) (n : Nat) (pages : List PageInfo)
    (d : Descriptor) (hd : d ∈ multiLoop w n pages) :
    ∃ v : Value, aget d.meta "num" = some v := by
  induction pages generalizing w n with
  | nil => simp [multiLoop] at hd
  | cons pg rest ih =>
    simp only [multiLoop, List.mem_cons] at hd
    rcases hd with rfl | hd
    · refine ⟨Value.vstr (pSuffix n), ?_⟩
      rw [aget_aset_ne _ _ _ _ (by decide), aget_aset_self]
    · exact ih _ _ hd

/-- Concrete policy-context metadata used by the witnesses. -/
def cContext : Dict := [("user", Value.vstr ("ctx-user".toList))]

/-- Concrete animation work used by the witnesses. -/
def cUgoiraWork : Dict :=
  [("id", Value.vnum 66806629), ("type", Value.vstr ("ugoira".toList)),
   ("page_count", Value.vnum 1),
   ("meta_single_page", Value.vsingle ⟨[]⟩),
   ("image_urls", Value.vstr []),
   ("meta_pages", Value.vpages []),
   ("tags", Value.vtags [⟨"Original".toList⟩]),
   ("user", Value.vstr ("artist".toList))]

/-- Concrete animation-frame metadata used by the witnesses. -/
def cUgoiraOf : Value → UgoiraMeta := fun _ =>
  ⟨"https://i.pximg.net/img-zip-ugoira/66806629_ugoira600x600.zip".toList,
   [⟨"000000.jpg".toList, 100⟩, ⟨"000001.jpg".toList, 120⟩]⟩

/-- C2: an animation work with loading enabled resolves to exactly two
descriptors — first the rewritten archive (extension `zip`, non-empty URL),
then the synthetic frame-timing text (`text:` payload, extension `txt`, one
line per frame) — and with loading disabled to exactly zero descriptors. -/
theorem claim_C2_animation_descriptors (metadata : Dict)
    (ugoiraOf : Value → UgoiraMeta) (work : Dict) (mspv mpsv iuv idv : Value)
    (tl : List Tag)
    (h1 : aget work "meta_single_page" = some mspv)
    (h2 : aget work "meta_pages" = some mpsv)
    (h3 : aget work "image_urls" = some iuv)
    (h4 : aget work "tags" = some (Value.vtags tl))
    (hmtype : aget metadata "type" = none)
    (htype : aget work "type" = some (Value.vstr ("ugoira".toList)))
    (hmid : aget metadata "id" = none)
    (hid : aget work "id" = some idv)
    (hzip : (ugoiraOf idv).zip_urls_medium ≠ [])
    (hfiles : ∀ f ∈ (ugoiraOf idv).frames, '\n' ∉ f.file) :
    (∃ d1 d2 : Descriptor,
      resolveWork true metadata ugoiraOf work = some [d1, d2] ∧
      d1.url = replaceAll medMarker hiMarker (ugoiraOf idv).zip_urls_medium ∧
      d1.url ≠ [] ∧
      aget d1.meta "extension" = some (Value.vstr ("zip".toList)) ∧
      d2.url = ("text:".toList) ++ frameList (ugoiraOf idv).frames ∧
      aget d2.meta "extension" = some (Value.vstr ("txt".toList)) ∧
      (frameList (ugoiraOf idv).frames).count '\n' = (ugoiraOf idv).frames.length) ∧
    resolveWork false metadata ugoiraOf work = some [] := by
  constructor
  · have h := resolveWork_ugoira_eq true metadata ugoiraOf work mspv mpsv iuv idv tl
      h1 h2 h3 h4 hmtype htype hmid hid
    rw [if_pos rfl] at h
    exact ⟨_, _, h, rfl, replaceAll_ne_nil _ _ _ hzip (by decide),
      aget_aset_self _ _ _, rfl, aget_aset_self _ _ _,
      count_newline_frameList _ hfiles⟩
  · have h := resolveWork_ugoira_eq false metadata ugoiraOf work mspv mpsv iuv idv tl
      h1 h2 h3 h4 hmtype htype hmid hid
    rw [if_neg (by simp)] at h
    exact h

theorem claim_C2_witness :
    aget cUgoiraWork "type" = some (Value.vstr ("ugoira".toList)) ∧
    ((∃ d1 d2 : Descriptor,
      resolveWork true cContext cUgoiraOf cUgoiraWork = some [d1, d2] ∧
      d1.url = replaceAll medMarker hiMarker
        (cUgoiraOf (Value.vnum 66806629)).zip_urls_medium ∧
      d1.url ≠ [] ∧
      aget d1.meta "extension" = some (Value.vstr ("zip".toList)) ∧
      d2.url = ("text:".toList) ++ frameList (cUgoiraOf (Value.vnum 66806629)).frames ∧
      aget d2.meta "extension" = some (Value.vstr ("txt".toList)) ∧
      (frameList (cUgoiraOf (Value.vnum 66806629)).frames).count '\n' =
        (cUgoiraOf (Value.vnum 66806629)).frames.length) ∧
    resolveWork false cContext cUgoiraOf cUgoiraWork = some []) :=
  ⟨by decide,
   claim_C2_animation_descriptors cContext cUgoiraOf cUgoiraWork
     (Value.vsingle ⟨[]⟩) (Value.vpages []) (Value.vstr [])
     (Value.vnum 66806629) [⟨"Original".toList⟩]
     (by decide) (by decide) (by decide) (by decide) (by decide) (by decide)
     (by decide) (by decide) (by decide) (by decide)⟩

/-- C3: when the archive URL contains the medium-resolution marker exactly
once, the archive descriptor URL is the same URL with exactly that marker
replaced by the high-resolution marker. -/
theorem claim_C3_url_rewrite (metadata : Dict) (ugoiraOf : Value → UgoiraMeta)
    (work : Dict) (mspv mpsv iuv idv : Value) (tl : List Tag) (q s : Str)
    (h1 : aget work "meta_single_page" = some mspv)
    (h2 : aget work "meta_pages" = some mpsv)
    (h3 : aget work "image_urls" = some iuv)
    (h4 : aget work "tags" = some (Value.vtags tl))
    (hmtype : aget metadata "type" = none)
    (htype : aget work "type" = some (Value.vstr ("ugoira".toList)))
    (hmid : aget metadata "id" = none)
    (hid : aget work "id" = some idv)
    (hurl : (ugoiraOf idv).zip_urls_medium = q ++ medMarker ++ s)
    (hq : ∀ j, j < q.length →
      medMarker.isPrefixOf ((q ++ (medMarker ++ s)).drop j) = false)
    (hs : hasInfix medMarker s = false) :
    ∃ d1 d2 : Descriptor,
      resolveWork true metadata ugoiraOf work = some [d1, d2] ∧
      d1.url = q ++ hiMarker ++ s := by
  have h := resolveWork_ugoira_eq true metadata ugoiraOf work mspv mpsv iuv idv tl
    h1 h2 h3 h4 hmtype htype hmid hid
  rw [if_pos rfl] at h
  refine ⟨_, _, h, ?_⟩
  show replaceAll medMarker hiMarker (ugoiraOf idv).zip_urls_medium = q ++ hiMarker ++ s
  rw [hurl]
  exact replaceAll_single_occurrence medMarker hiMarker s (by decide) hs q hq

theorem claim_C3_witness :
    (cUgoiraOf (Value.vnum 66806629)).zip_urls_medium =
      ("https://i.pximg.net/img-zip-ugoira/66806629".toList) ++ medMarker ++
        (".zip".toList) ∧
    (∃ d1 d2 : Descriptor,
      resolveWork true cContext cUgoiraOf cUgoiraWork = some [d1, d2] ∧
      d1.url = ("https://i.pximg.net/img-zip-ugoira/66806629".toList) ++ hiMarker ++
        (".zip".toList)) :=
  ⟨by decide,
   claim_C3_url_rewrite cContext cUgoiraOf cUgoiraWork
     (Value.vsingle ⟨[]⟩) (Value.vpages []) (Value.vstr [])
     (Value.vnum 66806629) [⟨"Original".toList⟩]
     ("https://i.pximg.net/img-zip-ugoira/66806629".toList) (".zip".toList)
     (by decide) (by decide) (by decide) (by decide) (by decide) (by decide)
     (by decide) (by decide) (by decide) (by decide) (by decide)⟩

/-- Concrete three-page work used by the witnesses. -/
def cMultiWork : Dict :=
  [("id", Value.vnum 123), ("type", Value.vstr ("illust".toList)),
   ("page_count", Value.vnum 3),
   ("meta_single_page", Value.vsingle ⟨[]⟩),
   ("image_urls", Value.vstr []),
   ("meta_pages", Value.vpages [⟨"https://x/123_p0.png".toList⟩,
     ⟨"https://x/123_p1.jpg".toList⟩, ⟨"https://x/123_p2.gif".toList⟩]),
   ("tags", Value.vtags [⟨"a".toList⟩]),
   ("user", Value.vstr ("artist".toList))]

/-- C4: a non-animation work with page count `k > 1` resolves to exactly `k`
descriptors in page order, page `n` carrying suffix `_p` plus `n` zero-padded
to (at least) two digits. -/
theorem claim_C4_multi_page_suffixes (load : Bool) (metadata : Dict)
    (ugoiraOf : Value → UgoiraMeta) (work : Dict) (pages : List PageInfo)
    (mspv iuv : Value) (tl : List Tag) (t : Str) (k : Nat)
    (h1 : aget work "meta_single_page" = some mspv)
    (h2 : aget work "meta_pages" = some (Value.vpages pages))
    (h3 : aget work "image_urls" = some iuv)
    (h4 : aget work "tags" = some (Value.vtags tl))
    (hmtype : aget metadata "type" = none)
    (htype : aget work "type" = some (Value.vstr t))
    (ht : t ≠ "ugoira".toList)
    (hmpc : aget metadata "page_count" = none)
    (hpc : aget work "page_count" = some (Value.vnum (k : Int)))
    (hk : 1 < k) (hlen : pages.length = k) :
    ∃ out : List Descriptor,
      resolveWork load metadata ugoiraOf work = some out ∧ out.length = k ∧
      ∀ (i : Nat) (pg : PageInfo), pages[i]? = some pg →
        ∃ d : Descriptor, out[i]? = some d ∧ d.url = pg.original ∧
          aget d.meta "num" = some (Value.vstr ('_' :: 'p' ::
            (if i < 10 then '0' :: natRepr i else natRepr i))) ∧
          aget d.meta "extension" = some (Value.vstr (extOf pg.original)) := by
  have hpc1 : Value.vnum (k : Int) ≠ Value.vnum 1 := by
    simp only [ne_eq, Value.vnum.injEq]
    omega
  have h := resolveWork_multi_eq load metadata ugoiraOf work pages mspv iuv
    (Value.vnum (k : Int)) tl t h1 h2 h3 h4 hmtype htype ht hmpc hpc hpc1
  refine ⟨_, h, ?_, ?_⟩
  · rw [multiLoop_length, hlen]
  · intro i pg hi
    obtain ⟨d, hd, hu, hn, he⟩ := multiLoop_getElem _ 0 pages i pg hi
    refine ⟨d, hd, hu, ?_, he⟩
    rw [hn]
    simp [pSuffix, fmt02]

theorem claim_C4_witness :
    (1 < 3 ∧ aget cMultiWork "page_count" = some (Value.vnum ((3 : Nat) : Int))) ∧
    (∃ out : List Descriptor,
      resolveWork true cContext cUgoiraOf cMultiWork = some out ∧ out.length = 3 ∧
      ∀ (i : Nat) (pg : PageInfo),
        ([⟨"https://x/123_p0.png".toList⟩,
          ⟨"https://x/123_p1.jpg".toList⟩,
          ⟨"https://x/123_p2.gif".toList⟩] : List PageInfo)[i]? = some pg →
        ∃ d : Descriptor, out[i]? = some d ∧ d.url = pg.original ∧
          aget d.meta "num" = some (Value.vstr ('_' :: 'p' ::
            (if i < 10 then '0' :: natRepr i else natRepr i))) ∧
          aget d.meta "extension" = some (Value.vstr (extOf pg.original))) :=
  ⟨⟨by norm_num, by decide⟩,
   claim_C4_multi_page_suffixes true cContext cUgoiraOf cMultiWork
     [⟨"https://x/123_p0.png".toList⟩, ⟨"https://x/123_p1.jpg".toList⟩,
      ⟨"https://x/123_p2.gif".toList⟩]
     (Value.vsingle ⟨[]⟩) (Value.vstr []) [⟨"a".toList⟩] ("illust".toList) 3
     (by decide) (by decide) (by decide) (by decide) (by decide) (by decide)
     (by decide) (by decide) (by decide) (by norm_num) (by decide)⟩

/-- Concrete single-page work with an unusual type tag, used by witnesses. -/
def cSingleWork : Dict :=
  [("id", Value.vnum 966412), ("type", Value.vstr ("weird".toList)),
   ("page_count", Value.vnum 1),
   ("meta_single_page", Value.vsingle ⟨"https://x/12345_p0.png".toList⟩),
   ("image_urls", Value.vstr []),
   ("meta_pages", Value.vpages []),
   ("tags", Value.vtags []),
   ("user", Value.vstr ("artist".toList))]

/-- C10: a non-animation work with page count 1 resolves to exactly one
descriptor built from the single-page original URL, whatever its type tag
and whatever the animation-loading flag. -/
theorem claim_C10_single_by_page_count (load : Bool) (metadata : Dict)
    (ugoiraOf : Value → UgoiraMeta) (work : Dict) (u : Str) (mpsv iuv : Value)
    (tl : List Tag) (t : Str)
    (h1 : aget work "meta_single_page" = some (Value.vsingle ⟨u⟩))
    (h2 : aget work "meta_pages" = some mpsv)
    (h3 : aget work "image_urls" = some iuv)
    (h4 : aget work "tags" = some (Value.vtags tl))
    (hmtype : aget metadata "type" = none)
    (htype : aget work "type" = some (Value.vstr t))
    (ht : t ≠ "ugoira".toList)
    (hmpc : aget metadata "page_count" = none)
    (hpc : aget work "page_count" = some (Value.vnum 1)) :
    ∃ d : Descriptor, resolveWork load metadata ugoiraOf work = some [d] ∧
      d.url = u ∧ aget d.meta "extension" = some (Value.vstr (extOf u)) := by
  have h := resolveWork_single_eq load metadata ugoiraOf work u mpsv iuv tl t
    h1 h2 h3 h4 hmtype htype ht hmpc hpc
  exact ⟨_, h, rfl, aget_aset_self _ _ _⟩

theorem claim_C10_witness :
    (("weird".toList : Str) ≠ "ugoira".toList ∧
      extOf ("https://x/12345_p0.png".toList) = "png".toList) ∧
    (∃ d : Descriptor,
      resolveWork true cContext cUgoiraOf cSingleWork = some [d] ∧
      d.url = "https://x/12345_p0.png".toList ∧
      aget d.meta "extension" =
        some (Value.vstr (extOf ("https://x/12345_p0.png".toList)))) :=
  ⟨⟨by decide, by decide⟩,
   claim_C10_single_by_page_count true cContext cUgoiraOf cSingleWork
     ("https://x/12345_p0.png".toList) (Value.vpages []) (Value.vstr [])
     [] ("weird".toList)
     (by decide) (by decide) (by decide) (by decide) (by decide) (by decide)
     (by decide) (by decide) (by decide)⟩

/-- Every descriptor a successful resolution yields agrees, at any key other
than `extension`/`num`, with the prepared work dict (deletions, flattened
tags, context merged over the work fields), and always carries an
`extension` string and a `num` entry. -/
theorem resolveWork_meta_shape (load : Bool) (metadata : Dict)
    (ugoiraOf : Value → UgoiraMeta) (work : Dict) (out : List Descriptor)
    (d : Descriptor) (hres : resolveWork load metadata ugoiraOf work = some out)
    (hd : d ∈ out) :
    ∃ tl : List Tag, aget work "tags" = some (Value.vtags tl) ∧
      (∀ k : String, "extension" ≠ k → "num" ≠ k →
        aget d.meta k = aget (prepared metadata work (tl.map (fun t => t.name))) k) ∧
      (∃ e : Str, aget d.meta "extension" = some (Value.vstr e)) ∧
      (∃ v : Value, aget d.meta "num" = some v) := by
  rw [resolveWork] at hres
  cases hmsp : aget work "meta_single_page" with
  | none => rw [hmsp] at hres; simp at hres
  | some mspv =>
  rw [hmsp] at hres
  simp only [Option.bind_eq_bind, Option.some_bind] at hres
  cases hmps : aget work "meta_pages" with
  | none => rw [hmps] at hres; simp at hres
  | some mpsv =>
  rw [hmps] at hres
  simp only [Option.some_bind] at hres
  cases hiu : aget work "image_urls" with
  | none => rw [hiu] at hres; simp at hres
  | some iuv =>
  rw [hiu] at hres
  simp only [Option.some_bind] at hres
  have htagw : aget (aset (adel (adel (adel work "meta_single_page") "image_urls")
      "meta_pages") "num" (Value.vstr [])) "tags" = aget work "tags" := by
    rw [aget_aset_ne _ _ _ _ (by decide), aget_adel_ne _ _ _ (by decide),
      aget_adel_ne _ _ _ (by decide), aget_adel_ne _ _ _ (by decide)]
  rw [htagw] at hres
  cases htags : aget work "tags" with
  | none => rw [htags] at hres; simp at hres
  | some tagsv =>
  rw [htags] at hres
  simp only [Option.some_bind] at hres
  cases tagsv with
  | vstr s => simp [asTagNames] at hres
  | vnum n => simp [asTagNames] at hres
  | vstrs l => simp [asTagNames] at hres
  | vsingle p => simp [asTagNames] at hres
  | vpages l => simp [asTagNames] at hres
  | vtags tl =>
  simp only [asTagNames, Option.some_bind] at hres
  refine ⟨tl, rfl, ?_⟩
  set P := aupdate (aset (aset (adel (adel (adel work "meta_single_page")
    "image_urls") "meta_pages") "num" (Value.vstr [])) "tags"
    (Value.vstrs (List.map (fun t => t.name) tl))) metadata with hP
  have hPnum : ∃ v : Value, aget P "num" = some v := by
    have h := aget_prepared_num_isSome metadata work (List.map (fun t => t.name) tl)
    rw [prepared] at h
    rw [hP]
    exact Option.isSome_iff_exists.mp h
  have hPeq : ∀ k : String,
      aget P k = aget (prepared metadata work (tl.map (fun t => t.name))) k := by
    intro k
    rw [hP, prepared]
  cases htv : aget P "type" with
  | none => rw [htv] at hres; simp at hres
  | some tv =>
  rw [htv] at hres
  simp only [Option.some_bind] at hres
  by_cases htu : tv = Value.vstr ("ugoira".toList)
  · rw [if_pos htu] at hres
    by_cases hload : load = false
    · rw [if_pos hload] at hres
      simp only [Option.pure_def, Option.some_inj] at hres
      subst hres
      simp at hd
    · rw [if_neg hload] at hres
      cases hidv : aget P "id" with
      | none => rw [hidv] at hres; simp at hres
      | some idv =>
      rw [hidv] at hres
      simp only [Option.some_bind, Option.pure_def, Option.some_inj] at hres
      subst hres
      simp only [List.mem_cons, List.mem_singleton, List.not_mem_nil,
        or_false] at hd
      rcases hd with rfl | rfl
      · refine ⟨?_, ⟨_, aget_aset_self _ _ _⟩, ?_⟩
        · intro k h1 h2
          rw [aget_aset_ne _ _ _ _ h1, hPeq k]
        · obtain ⟨v, hv⟩ := hPnum
          exact ⟨v, by rw [aget_aset_ne _ _ _ _ (by decide), hv]⟩
      · refine ⟨?_, ⟨_, aget_aset_self _ _ _⟩, ?_⟩
        · intro k h1 h2
          rw [aget_aset_ne _ _ _ _ h1, aget_aset_ne _ _ _ _ h1, hPeq k]
        · obtain ⟨v, hv⟩ := hPnum
          exact ⟨v, by rw [aget_aset_ne _ _ _ _ (by decide),
            aget_aset_ne _ _ _ _ (by decide), hv]⟩
  · rw [if_neg htu] at hres
    cases hpv : aget P "page_count" with
    | none => rw [hpv] at hres; simp at hres
    | some pv =>
    rw [hpv] at hres
    simp only [Option.some_bind] at hres
    by_cases hp1 : pv = Value.vnum 1
    · rw [if_pos hp1] at hres
      cases mspv with
      | vstr s => simp [asSingleUrl] at hres
      | vnum n => simp [asSingleUrl] at hres
      | vstrs l => simp [asSingleUrl] at hres
      | vtags l2 => simp [asSingleUrl] at hres
      | vpages l => simp [asSingleUrl] at hres
      | vsingle sp =>
      simp only [asSingleUrl, Option.some_bind, Option.pure_def,
        Option.some_inj] at hres
      subst hres
      simp only [List.mem_singleton] at hd
      subst hd
      refine ⟨?_, ⟨_, aget_aset_self _ _ _⟩, ?_⟩
      · intro k h1 h2
        rw [aget_aset_ne _ _ _ _ h1, hPeq k]
      · obtain ⟨v, hv⟩ := hPnum
        exact ⟨v, by rw [aget_aset_ne _ _ _ _ (by decide), hv]⟩
    · rw [if_neg hp1] at hres
      cases mpsv with
      | vstr s => simp [asPages] at hres
      | vnum n => simp [asPages] at hres
      | vstrs l => simp [asPages] at hres
      | vtags l2 => simp [asPages] at hres
      | vsingle sp => simp [asPages] at hres
      | vpages pages =>
      simp only [asPages, Option.some_bind, Option.pure_def, Option.some_inj] at hres
      subst hres
      refine ⟨?_, multiLoop_meta_ext _ _ _ _ hd, multiLoop_meta_num _ _ _ _ hd⟩
      intro k h1 h2
      rw [multiLoop_meta_other _ _ _ _ hd k h2 h1, hPeq k]

/-- The list of descriptors the witnesses obtain from the single-image
fixture. -/
def cResolvedSingle : List Descriptor :=
  (resolveWork true cContext cUgoiraOf cSingleWork).getD []

/-- The list of descriptors the witnesses obtain from the multi-image
fixture. -/
def cResolvedMulti : List Descriptor :=
  (resolveWork true cContext cUgoiraOf cMultiWork).getD []

/-- C1 counterexample: the claim predicts that on a key collision the
per-work field beats the policy context; in the code `work.update(metadata)`
overlays the context *over* the work fields, so the context value wins.  The
fixture work carries `user = "artist"` and the context `user = "ctx-user"`;
the resolved descriptor carries the context value. -/
theorem claim_C1_counterexample :
    (resolveWork true cContext cUgoiraOf cSingleWork).map
        (fun out => out.map (fun d => aget d.meta "user")) =
      some [some (Value.vstr ("ctx-user".toList))] ∧
    aget cSingleWork "user" = some (Value.vstr ("artist".toList)) ∧
    some (Value.vstr ("ctx-user".toList)) ≠ some (Value.vstr ("artist".toList)) := by
  refine ⟨by decide, by decide, by decide⟩

/-- C1 (amended): the metadata record is built from the work-derived fields
as base, the policy context merged over them (context wins on collision;
the reverse of the claimed precedence), and the resolver-computed
`extension` set after the merge, winning over both. -/
theorem claim_C1_overlay_precedence (load : Bool) (metadata : Dict)
    (ugoiraOf : Value → UgoiraMeta) (work : Dict) (out : List Descriptor)
    (d : Descriptor) (hres : resolveWork load metadata ugoiraOf work = some out)
    (hd : d ∈ out) (hnd : (metadata.map Prod.fst).Nodup) :
    (∀ (k : String) (v : Value), "extension" ≠ k → "num" ≠ k →
      aget metadata k = some v → aget d.meta k = some v) ∧
    (∀ k : String, "extension" ≠ k → "num" ≠ k → "tags" ≠ k →
      "meta_single_page" ≠ k → "image_urls" ≠ k → "meta_pages" ≠ k →
      aget metadata k = none → aget d.meta k = aget work k) ∧
    (∃ e : Str, aget d.meta "extension" = some (Value.vstr e)) := by
  obtain ⟨tl, htl, hother, hext, hnum⟩ :=
    resolveWork_meta_shape load metadata ugoiraOf work out d hres hd
  refine ⟨?_, ?_, hext⟩
  · intro k v hk1 hk2 hmv
    rw [hother k hk1 hk2, aget_prepared_md _ _ _ _ _ hnd hmv]
  · intro k hk1 hk2 hk3 hk4 hk5 hk6 hmn
    rw [hother k hk1 hk2, aget_prepared_other _ _ _ _ hmn hk3 hk2 hk6 hk5 hk4]

theorem claim_C1_witness :
    resolveWork true cContext cUgoiraOf cSingleWork = some cResolvedSingle ∧
    aget (cResolvedSingle.headD ⟨[], []⟩).meta "user" =
      some (Value.vstr ("ctx-user".toList)) ∧
    (∃ e : Str, aget (cResolvedSingle.headD ⟨[], []⟩).meta "extension" =
      some (Value.vstr e)) := by
  have hres : resolveWork true cContext cUgoiraOf cSingleWork =
      some cResolvedSingle := by decide
  obtain ⟨h1, h2, h3⟩ := claim_C1_overlay_precedence true cContext cUgoiraOf
    cSingleWork cResolvedSingle (cResolvedSingle.headD ⟨[], []⟩) hres
    (by decide) (by decide)
  exact ⟨hres, h1 "user" (Value.vstr ("ctx-user".toList)) (by decide) (by decide)
    (by decide), h3⟩

/-- C9 counterexample: the claim says resolution leaves the raw work record
untouched; in the code the record is mutated in place (the yielded metadata
dict is that same object), and after resolution its `meta_pages` entry is
gone while the original fetched record had one. -/
theorem claim_C9_counterexample :
    (resolveWork true cContext cUgoiraOf cMultiWork).map
        (fun out => out.map (fun d => aget d.meta "meta_pages")) =
      some [none, none, none] ∧
    (aget cMultiWork "meta_pages").isSome = true := by
  refine ⟨by decide, by decide⟩

/-- C9 (amended): resolution mutates the work record: `meta_single_page`,
`image_urls` and `meta_pages` are deleted, `num` and `extension` are added
(and `tags` is overwritten with the flattened names), so the record attached
to every descriptor differs from the fetched one in exactly those fields. -/
theorem claim_C9_resolver_mutates (load : Bool) (metadata : Dict)
    (ugoiraOf : Value → UgoiraMeta) (work : Dict) (out : List Descriptor)
    (d : Descriptor) (hres : resolveWork load metadata ugoiraOf work = some out)
    (hd : d ∈ out)
    (h5 : aget metadata "meta_single_page" = none)
    (h6 : aget metadata "image_urls" = none)
    (h7 : aget metadata "meta_pages" = none) :
    aget d.meta "meta_single_page" = none ∧
    aget d.meta "image_urls" = none ∧
    aget d.meta "meta_pages" = none ∧
    (∃ v : Value, aget d.meta "num" = some v) ∧
    (∃ e : Str, aget d.meta "extension" = some (Value.vstr e)) := by
  obtain ⟨tl, htl, hother, hext, hnum⟩ :=
    resolveWork_meta_shape load metadata ugoiraOf work out d hres hd
  refine ⟨?_, ?_, ?_, hnum, hext⟩
  · rw [hother _ (by decide) (by decide)]
    exact aget_prepared_deleted _ _ _ _ h5 (Or.inl rfl)
  · rw [hother _ (by decide) (by decide)]
    exact aget_prepared_deleted _ _ _ _ h6 (Or.inr (Or.inl rfl))
  · rw [hother _ (by decide) (by decide)]
    exact aget_prepared_deleted _ _ _ _ h7 (Or.inr (Or.inr rfl))

theorem claim_C9_witness :
    resolveWork true cContext cUgoiraOf cMultiWork = some cResolvedMulti ∧
    aget (cResolvedMulti.headD ⟨[], []⟩).meta "meta_pages" = none ∧
    (∃ v : Value, aget (cResolvedMulti.headD ⟨[], []⟩).meta "num" = some v) := by
  have hres : resolveWork true cContext cUgoiraOf cMultiWork =
      some cResolvedMulti := by decide
  obtain ⟨h1, h2, h3, h4, h5⟩ := claim_C9_resolver_mutates true cContext cUgoiraOf
    cMultiWork cResolvedMulti (cResolvedMulti.headD ⟨[], []⟩) hres
    (by decide) (by decide) (by decide) (by decide)
  exact ⟨hres, h3, h4⟩

/-- Matches any HTTP-request event. -/
def isHttpGet : ApiEvent → Bool
  | ApiEvent.httpGet _ _ => true
  | _ => false

/-- C5: every API call checks credentials first, then performs one GET;
2xx/3xx returns the body, 404 raises not-found, anything else logs the body
and aborts; no branch retries. -/
theorem claim_C5_call_contract (endpoint : Str) (params : Params)
    (response : HttpResponse) :
    (pixivCall endpoint params response).1 =
      [ApiEvent.login,
       ApiEvent.httpGet (("https://app-api.pixiv.net/".toList) ++ endpoint) params] ∧
    ((pixivCall endpoint params response).1.countP isHttpGet = 1) ∧
    (200 ≤ response.status ∧ response.status < 400 →
      (pixivCall endpoint params response).2 = Except.ok response.body) ∧
    (response.status = 404 →
      (pixivCall endpoint params response).2 = Except.error CallError.notFound) ∧
    (¬(200 ≤ response.status ∧ response.status < 400) → response.status ≠ 404 →
      (pixivCall endpoint params response).2 =
        Except.error (CallError.stopExtraction response.body)) := by
  refine ⟨rfl, rfl, ?_, ?_, ?_⟩
  · intro h
    show (if 200 ≤ response.status ∧ response.status < 400 then _ else _) = _
    rw [if_pos h]
  · intro h
    show (if 200 ≤ response.status ∧ response.status < 400 then _ else _) = _
    rw [if_neg (by omega), if_pos h]
  · intro h1 h2
    show (if 200 ≤ response.status ∧ response.status < 400 then _ else _) = _
    rw [if_neg h1, if_neg h2]

theorem claim_C5_witness :
    (pixivCall ("v1/illust/detail".toList) [] ⟨250, "ok-body".toList⟩).2 =
      Except.ok ("ok-body".toList) ∧
    (pixivCall ("v1/illust/detail".toList) [] ⟨404, "nf".toList⟩).2 =
      Except.error CallError.notFound ∧
    (pixivCall ("v1/illust/detail".toList) [] ⟨500, "oops".toList⟩).2 =
      Except.error (CallError.stopExtraction ("oops".toList)) :=
  ⟨(claim_C5_call_contract ("v1/illust/detail".toList) [] ⟨250, "ok-body".toList⟩).2.2.1
     (by norm_num),
   (claim_C5_call_contract ("v1/illust/detail".toList) [] ⟨404, "nf".toList⟩).2.2.2.1 rfl,
   (claim_C5_call_contract ("v1/illust/detail".toList) [] ⟨500, "oops".toList⟩).2.2.2.2
     (by norm_num) (by norm_num)⟩

/-- C7 counterexample: for the recognized input mode `weekly_r18` the
ranking metadata context receives the input name `weekly_r18`, not the API
value `week_r18` the claim predicts for it. -/
theorem claim_C7_counterexample :
    (parseRankingMode (some ("weekly_r18".toList))).map (fun r => r.contextMode) =
      some ("weekly_r18".toList) ∧
    (parseRankingMode (some ("weekly_r18".toList))).map (fun r => r.apiMode) =
      some ("week_r18".toList) ∧
    ("weekly_r18".toList : Str) ≠ "week_r18".toList := by
  refine ⟨by decide, by decide, by decide⟩

/-- C7 (amended): an unrecognized mode warns and defaults — the endpoint
gets `day` (the API value of `daily`) and the metadata context gets
`daily` — while a recognized mode is sent to the endpoint as its API value
and recorded in the metadata context under its input name. -/
theorem claim_C7_mode_mapping :
    (∀ q : Str, (∀ p ∈ rankingModes, p.1 ≠ strLower q) →
      parseRankingMode (some q) =
        some ⟨"day".toList, "daily".toList, true⟩) ∧
    (∀ (q : Str) (p : Str × Str),
      rankingModes.find? (fun r => r.1 == strLower q) = some p →
      parseRankingMode (some q) = some ⟨p.2, strLower q, false⟩) := by
  constructor
  · intro q hq
    have hall : (rankingModes.all (fun p => p.1 != strLower q)) = true := by
      rw [List.all_eq_true]
      intro p hp
      simpa using hq p hp
    simp only [parseRankingMode, Option.getD_some, hall]
    rfl
  · intro q p hfind
    have hwarn : (rankingModes.all (fun r => r.1 != strLower q)) = false := by
      cases hw : rankingModes.all (fun r => r.1 != strLower q) with
      | false => rfl
      | true =>
        exfalso
        have hmem := List.mem_of_find?_eq_some hfind
        have heq : p.1 = strLower q := by simpa using List.find?_some hfind
        have := List.all_eq_true.mp hw p hmem
        simp [heq] at this
    simp only [parseRankingMode, Option.getD_some, hwarn]
    simp only [Bool.false_eq_true, if_false, hfind, Option.map_some]
    rfl

theorem claim_C7_witness :
    ((∀ p ∈ rankingModes, p.1 ≠ strLower ("bogus".toList)) ∧
      rankingModes.find? (fun r => r.1 == strLower ("weekly_r18".toList)) =
        some ("weekly_r18".toList, "week_r18".toList)) ∧
    parseRankingMode (some ("bogus".toList)) =
      some ⟨"day".toList, "daily".toList, true⟩ ∧
    parseRankingMode (some ("weekly_r18".toList)) =
      some ⟨"week_r18".toList, "weekly_r18".toList, false⟩ :=
  ⟨⟨by decide, by decide⟩,
   claim_C7_mode_mapping.1 ("bogus".toList) (by decide),
   claim_C7_mode_mapping.2 ("weekly_r18".toList)
     ("weekly_r18".toList, "week_r18".toList) (by decide)⟩

/-- C8 counterexample: the empty input date fails the 8-digit decimal check
but is falsy in `if date:`, so it takes the default *silently* — no warning,
contradicting the claim that any failing input date logs one. -/
theorem claim_C8_counterexample :
    ¬(([] : Str).length = 8 ∧ isDecimalStr [] = true) ∧
    parseRankingDate (some []) ("2017-08-17".toList) =
      ⟨"2017-08-17".toList, false⟩ := by
  refine ⟨by decide, by decide⟩

/-- C8 (amended): an 8-digit decimal input date is hyphenated; a *non-empty*
input date failing the check warns and defaults to UTC-yesterday; an empty
or absent date defaults silently. -/
theorem claim_C8_date_defaulting (y : Str) :
    parseRankingDate (some ("20170818".toList)) y =
      ⟨"2017-08-18".toList, false⟩ ∧
    parseRankingDate (some ("2017-08-18".toList)) y = ⟨y, true⟩ ∧
    (∀ d : Str, d.length = 8 → isDecimalStr d = true →
      parseRankingDate (some d) y = ⟨hyphenate d, false⟩) ∧
    (∀ d : Str, d ≠ [] → ¬(d.length = 8 ∧ isDecimalStr d = true) →
      parseRankingDate (some d) y = ⟨y, true⟩) ∧
    parseRankingDate (some []) y = ⟨y, false⟩ ∧
    parseRankingDate none y = ⟨y, false⟩ := by
  refine ⟨rfl, rfl, ?_, ?_, rfl, rfl⟩
  · intro d h1 h2
    have hne : ¬(d = []) := by
      intro hh
      rw [hh] at h1
      simp at h1
    rw [parseRankingDate, if_neg hne, if_pos ⟨h1, h2⟩]
  · intro d h1 h2
    rw [parseRankingDate, if_neg h1, if_neg h2]

theorem claim_C8_witness :
    (("20211231".toList : Str).length = 8 ∧
      isDecimalStr ("20211231".toList) = true) ∧
    parseRankingDate (some ("20211231".toList)) ("Y".toList) =
      ⟨hyphenate ("20211231".toList), false⟩ ∧
    parseRankingDate (some ("12-31".toList)) ("Y".toList) =
      ⟨"Y".toList, true⟩ :=
  ⟨⟨by decide, by decide⟩,
   (claim_C8_date_defaulting ("Y".toList)).2.2.1 ("20211231".toList)
     (by decide) (by decide),
   (claim_C8_date_defaulting ("Y".toList)).2.2.2.1 ("12-31".toList)
     (by decide) (by decide)⟩

theorem visitParams_succ_shift {α : Type} (server : Params → Page α)
    (params : Params) (n : Nat) :
    visitParams server params (n + 1) =
      visitParams server
        (aset params "offset" (afterLast '=' (server params).next_url)) n := by
  induction n with
  | zero => rfl
  | succ m ih =>
    show aset (visitParams server params (m + 1)) "offset"
        (afterLast '=' (server (visitParams server params (m + 1))).next_url) = _
    rw [ih]
    rfl

theorem paginate_isSome_iff {α : Type} (server : Params → Page α) :
    ∀ (fuel : Nat) (params : Params),
      (paginate server fuel params).isSome = true ↔
        ∃ n, n < fuel ∧ (server (visitParams server params n)).next_url = [] := by
  intro fuel
  induction fuel with
  | zero =>
    intro params
    simp [paginate]
  | succ f ih =>
    intro params
    rw [paginate]
    by_cases h0 : (server params).next_url = []
    · rw [if_pos h0]
      simp only [Option.isSome_some, true_iff]
      exact ⟨0, Nat.succ_pos f, h0⟩
    · rw [if_neg h0]
      constructor
      · intro hsome
        cases hrec : paginate server f
            (aset params "offset" (afterLast '=' (server params).next_url)) with
        | none =>
          rw [hrec] at hsome
          simp at hsome
        | some rest =>
          obtain ⟨n, hn, hend⟩ := (ih _).mp (by rw [hrec]; rfl)
          refine ⟨n + 1, Nat.succ_lt_succ hn, ?_⟩
          rw [visitParams_succ_shift]
          exact hend
      · rintro ⟨n, hn, hend⟩
        cases n with
        | zero => exact absurd hend h0
        | succ m =>
          have hend' := hend
          rw [visitParams_succ_shift] at hend'
          have hrec := (ih _).mpr ⟨m, Nat.lt_of_succ_lt_succ hn, hend'⟩
          cases hx : paginate server f
              (aset params "offset" (afterLast '=' (server params).next_url)) with
          | none =>
            rw [hx] at hrec
            simp at hrec
          | some rest =>
            rfl

theorem paginate_flatten {α : Type} (server : Params → Page α) :
    ∀ (fuel : Nat) (params : Params) (out : List α),
      paginate server fuel params = some out →
      ∃ N, N < fuel ∧ (server (visitParams server params N)).next_url = [] ∧
        (∀ i, i < N → (server (visitParams server params i)).next_url ≠ []) ∧
        out = ((List.range (N + 1)).map
          (fun i => (server (visitParams server params i)).illusts)).flatten := by
  intro fuel
  induction fuel with
  | zero =>
    intro params out h
    simp [paginate] at h
  | succ f ih =>
    intro params out h
    rw [paginate] at h
    by_cases h0 : (server params).next_url = []
    · rw [if_pos h0] at h
      simp only [Option.some_inj] at h
      refine ⟨0, Nat.succ_pos f, h0, by omega, ?_⟩
      rw [← h]
      simp [List.range_succ]
      rfl
    · rw [if_neg h0] at h
      cases hrec : paginate server f
          (aset params "offset" (afterLast '=' (server params).next_url)) with
      | none =>
        rw [hrec] at h
        simp at h
      | some rest =>
        rw [hrec] at h
        simp only [Option.some_inj] at h
        obtain ⟨N, hN, hend, hmid, hout⟩ := ih _ _ hrec
        refine ⟨N + 1, Nat.succ_lt_succ hN, ?_, ?_, ?_⟩
        · rw [visitParams_succ_shift]
          exact hend
        · intro i hi
          cases i with
          | zero => exact h0
          | succ j =>
            rw [visitParams_succ_shift]
            exact hmid j (Nat.lt_of_succ_lt_succ hi)
        · rw [← h, hout]
          have hr : List.range (N + 1 + 1) = 0 :: (List.range (N + 1)).map Nat.succ :=
            List.range_succ_eq_map (N + 1)
          rw [hr, List.map_cons, List.map_map, List.flatten_cons]
          congr 1
          apply congrArg
          apply List.map_congr_left
          intro a ha
          simp only [Function.comp_apply, Nat.succ_eq_add_one]
          rw [visitParams_succ_shift]

/-- C6: pagination terminates exactly when a page eventually has an empty
next-page field; a successful run flattens the visited pages in page order,
each page's items in order; after each non-final page the new offset is the
part of the next-page link after its last `=`. -/
theorem claim_C6_pagination {α : Type} (server : Params → Page α) (params : Params) :
    ((∃ fuel, (paginate server fuel params).isSome = true) ↔
      (∃ n, (server (visitParams server params n)).next_url = [])) ∧
    (∀ (fuel : Nat) (out : List α), paginate server fuel params = some out →
      ∃ N, (server (visitParams server params N)).next_url = [] ∧
        (∀ i, i < N → (server (visitParams server params i)).next_url ≠ []) ∧
        out = ((List.range (N + 1)).map
          (fun i => (server (visitParams server params i)).illusts)).flatten) ∧
    (∀ (n : Nat) (q s' : Str),
      (server (visitParams server params n)).next_url = q ++ '=' :: s' →
      '=' ∉ s' →
      aget (visitParams server params (n + 1)) "offset" = some s') := by
  refine ⟨⟨?_, ?_⟩, ?_, ?_⟩
  · rintro ⟨fuel, hf⟩
    obtain ⟨n, -, hn⟩ := (paginate_isSome_iff server fuel params).mp hf
    exact ⟨n, hn⟩
  · rintro ⟨n, hn⟩
    exact ⟨n + 1,
      (paginate_isSome_iff server (n + 1) params).mpr ⟨n, Nat.lt_succ_self n, hn⟩⟩
  · intro fuel out h
    obtain ⟨N, -, h1, h2, h3⟩ := paginate_flatten server fuel params out h
    exact ⟨N, h1, h2, h3⟩
  · intro n q s' h1 h2
    show aget (aset (visitParams server params n) "offset"
      (afterLast '=' (server (visitParams server params n)).next_url)) "offset" = _
    rw [aget_aset_self, h1, afterLast_append _ _ _ h2]

/-- Concrete three-page server used by the pagination witness. -/
def cServer : Params → Page Nat := fun p =>
  match aget p "offset" with
  | none => ⟨[1, 2], "https://app-api.pixiv.net/x?offset=2".toList⟩
  | some o =>
    if o = "2".toList then ⟨[3], "y?offset=4".toList⟩
    else ⟨[4, 5], []⟩

theorem claim_C6_witness :
    paginate cServer 3 [] = some [1, 2, 3, 4, 5] ∧
    (∃ n, (cServer (visitParams cServer [] n)).next_url = []) ∧
    (∃ N, (cServer (visitParams cServer [] N)).next_url = [] ∧
      (∀ i, i < N → (cServer (visitParams cServer [] i)).next_url ≠ []) ∧
      [1, 2, 3, 4, 5] = ((List.range (N + 1)).map
        (fun i => (cServer (visitParams cServer [] i)).illusts)).flatten) ∧
    aget (visitParams cServer [] 1) "offset" = some ("2".toList) := by
  have hp : paginate cServer 3 [] = some [1, 2, 3, 4, 5] := by decide
  obtain ⟨hiff, hord, hoff⟩ := claim_C6_pagination cServer []
  exact ⟨hp, hiff.mp ⟨3, by rw [hp]; rfl⟩, hord 3 _ hp,
    hoff 0 ("https://app-api.pixiv.net/x?offset".toList) ("2".toList)
      (by decide) (by decide)⟩

end PixivSpec
